import Mathlib

/-!
Verification of the market-structure / gap-zone lifecycle engine.

Shallow embedding of:
  * `src/lib/smc.py`   — swing-point detection (`get_swing_points`),
    market-structure-shift detection (`detect_mss`), and the stateful
    `FVGManager` (gap-zone registry: detection, expiration, inversion);
  * `src/lib/indicators/fvg_manager.py` — the second gap-zone manager
    (`scan_for_new_fvg`, `update_fvg_states`) with a configurable
    minimum gap size;
  * the zone-consumption pattern of `src/strategies/ifvg.py`
    (reading and setting the `traded` attribute of a zone).

Prices are modelled as rationals; pandas `NaN` entries become `Option`,
series become `List`, and a Python `IndexError` becomes `none` in an
`Option` result.
-/

namespace Smc

/-- Negative indexing `xs.iloc[-k]` for a pandas Series modelled as a list: the `k`-th element
from the end, `none` when the series is too short (Python raises
`IndexError` there). -/
def ilocLast (xs : List ℚ) (k : Nat) : Option ℚ :=
  if 1 ≤ k ∧ k ≤ xs.length then xs.get? (xs.length - k) else none

/-- Maximum of a list of rationals, `none` on the empty list
(pandas `rolling(...).max()` over a complete window). -/
def listMax : List ℚ → Option ℚ
  | [] => none
  | x :: xs =>
    match listMax xs with
    | none => some x
    | some m => some (max x m)

/-- Minimum of a list of rationals, `none` on the empty list. -/
def listMin : List ℚ → Option ℚ
  | [] => none
  | x :: xs =>
    match listMin xs with
    | none => some x
    | some m => some (min x m)

/-- The window `xs[i+1-w .. i]` used by `rolling(window=w)` evaluated at
position `i`. -/
def rollingWindow (xs : List ℚ) (w i : Nat) : List ℚ :=
  (xs.drop (i + 1 - w)).take w

/-- Evaluation of `high.rolling(window=w).max()` at position `i`: the maximum of the
backward window of width `w` ending at `i`, `NaN` (here `none`) while the
window is incomplete. -/
def rollingMax (xs : List ℚ) (w i : Nat) : Option ℚ :=
  if w ≤ i + 1 ∧ i < xs.length then listMax (rollingWindow xs w i) else none

/-- Evaluation of `low.rolling(window=w).min()` at position `i`. -/
def rollingMin (xs : List ℚ) (w i : Nat) : Option ℚ :=
  if w ≤ i + 1 ∧ i < xs.length then listMin (rollingWindow xs w i) else none

/-- Evaluation of `xs.shift(r)` at position `i`: the value `r` bars earlier, `NaN`
(`none`) for the first `r` positions. -/
def shiftAt (xs : List ℚ) (r i : Nat) : Option ℚ :=
  if r ≤ i then xs.get? (i - r) else none

/-- The high side of `get_swing_points` at confirmation index `i`:
`candidate_high.where(candidate_high == rolling_max, nan)` where
`candidate_high = high.shift(right)` and the rolling window has width
`left + right + 1`.  `some v` means a swing high of value `v` is confirmed
at `i`; `none` is the `NaN` output. -/
def swingHighAt (high : List ℚ) (left right i : Nat) : Option ℚ :=
  let window := left + right + 1
  match shiftAt high right i, rollingMax high window i with
  | some cand, some m => if cand = m then some cand else none
  | _, _ => none

/-- The low side of `get_swing_points` at confirmation index `i`. -/
def swingLowAt (low : List ℚ) (left right i : Nat) : Option ℚ :=
  let window := left + right + 1
  match shiftAt low right i, rollingMin low window i with
  | some cand, some m => if cand = m then some cand else none
  | _, _ => none

/-- Full `get_swing_points(high, low, left, right)`: the pair of output series,
placed at confirmation time. -/
def get_swing_points (high low : List ℚ) (left right : Nat) :
    List (Option ℚ) × List (Option ℚ) :=
  ((List.range high.length).map (swingHighAt high left right),
   (List.range low.length).map (swingLowAt low left right))

/-- Forward fill (`Series.ffill`) on a series with `NaN`s: propagate the last non-`NaN`
value forward, starting from `last`. -/
def ffillAux (last : Option ℚ) : List (Option ℚ) → List (Option ℚ)
  | [] => []
  | x :: xs =>
    match x with
    | some v => some v :: ffillAux (some v) xs
    | none => last :: ffillAux last xs

/-- Forward fill starting from no value. -/
def ffill (xs : List (Option ℚ)) : List (Option ℚ) :=
  ffillAux none xs

/-- Value of an already-forward-filled series shifted by one, at `i`:
`lsh.shift(1)` at index `i`.  `none` covers both index 0 and a still-`NaN`
level. -/
def levelShift1 (xs : List (Option ℚ)) (i : Nat) : Option ℚ :=
  if i = 0 then none else (xs.get? (i - 1)).join

/-- The series `(close > last_swing_high.shift(1)) & (close.shift(1) <= last_swing_high.shift(1))`
at index `i`; any `NaN` operand makes the comparison `False`, as in pandas. -/
def bullish_break (close : List ℚ) (lsh : List (Option ℚ)) (i : Nat) : Bool :=
  match close.get? i, levelShift1 lsh i, (if i = 0 then none else close.get? (i - 1)) with
  | some c, some level, some cp => decide (level < c) && decide (cp ≤ level)
  | _, _, _ => false

/-- The series `(close < last_swing_low.shift(1)) & (close.shift(1) >= last_swing_low.shift(1))`
at index `i`. -/
def bearish_break (close : List ℚ) (lsl : List (Option ℚ)) (i : Nat) : Bool :=
  match close.get? i, levelShift1 lsl i, (if i = 0 then none else close.get? (i - 1)) with
  | some c, some level, some cp => decide (c < level) && decide (level ≤ cp)
  | _, _, _ => false

/-- Structure shifts, `detect_mss(close, swing_highs, swing_lows)`.  The source builds a zero
series, then assigns `1` at `bullish_break` positions and afterwards `-1`
at `bearish_break` positions, so a (hypothetical) overlap would read `-1`. -/
def detect_mss (close : List ℚ) (swing_highs swing_lows : List (Option ℚ)) :
    List ℤ :=
  let lsh := ffill swing_highs
  let lsl := ffill swing_lows
  (List.range close.length).map fun i =>
    if bearish_break close lsl i then -1
    else if bullish_break close lsh i then 1
    else 0

/-- The `FVG` dataclass of `lib/smc.py`.  It has fields `top`, `bottom`,
`is_bullish`, `created_at`, `created_time` and `inverted` (default
`False`) — and, notably, no `traded` field.  `traded` here models the
*dynamic* Python attribute of that name: `none` means the attribute has
never been assigned, so reading it raises `AttributeError`; strategies
later execute `zone.traded = True`, which sets it. -/
structure FVG where
  top : ℚ
  bottom : ℚ
  is_bullish : Bool
  created_at : ℤ
  created_time : ℕ
  inverted : Bool := false
  traded : Option Bool := none
  deriving Repr, DecidableEq

/-- The state of `lib/smc.py`'s `FVGManager`: the `expiration` horizon and
the two zone registries. -/
structure FVGManager where
  expiration : ℤ
  active_fvgs : List FVG := []
  inverted_fvgs : List FVG := []
  deriving Repr, DecidableEq

/-- The inversion test of `FVGManager.update` step 3: a Bullish zone is
closed through when `price_close < f.bottom`, a Bearish one when
`price_close > f.top`. -/
def invertCond (price_close : ℚ) (f : FVG) : Bool :=
  if f.is_bullish then decide (price_close < f.bottom)
  else decide (f.top < price_close)

/-- One iteration of the `for f in self.active_fvgs` loop of
`FVGManager.update` step 3, threading the `(still_active, inverted_fvgs)`
accumulator. -/
def inversionStep (price_close : ℚ) (acc : List FVG × List FVG) (f : FVG) :
    List FVG × List FVG :=
  if invertCond price_close f then (acc.1, acc.2 ++ [{ f with inverted := true }])
  else (acc.1 ++ [f], acc.2)

/-- The per-bar transition `FVGManager.update(data_high, data_low, data_close,
current_idx, current_time)`.  Steps, in source order: (1) expire zones older than the
horizon from both registries; (2) detect a new Bullish and/or Bearish gap
from the last and third-from-last bars; (3) move active zones whose far
boundary the close crossed into the inverted registry.  A history shorter
than three bars makes `iloc[-3]` raise `IndexError` in the source; the
whole call is modelled as `none` in that case. -/
def FVGManager.update (m : FVGManager) (data_high data_low data_close : List ℚ)
    (current_idx : ℤ) (current_time : ℕ) : Option FVGManager :=
  let active0 := m.active_fvgs.filter fun f =>
    decide (current_idx - f.created_at ≤ m.expiration)
  let inverted0 := m.inverted_fvgs.filter fun f =>
    decide (current_idx - f.created_at ≤ m.expiration)
  match ilocLast data_low 1, ilocLast data_high 3, ilocLast data_high 1,
      ilocLast data_low 3, ilocLast data_close 1 with
  | some low1, some high3, some high1, some low3, some close1 =>
    let active1 :=
      if low1 > high3 then
        if low1 - high3 > 0 then
          active0 ++ [{ top := low1, bottom := high3, is_bullish := true,
                        created_at := current_idx, created_time := current_time }]
        else active0
      else active0
    let active2 :=
      if high1 < low3 then
        if low3 - high1 > 0 then
          active1 ++ [{ top := low3, bottom := high1, is_bullish := false,
                        created_at := current_idx, created_time := current_time }]
        else active1
      else active1
    let result := active2.foldl (inversionStep close1) ([], inverted0)
    some { m with active_fvgs := result.1, inverted_fvgs := result.2 }
  | _, _, _, _, _ => none

/-- Step 1 of `FVGManager.update` as a standalone function: the zones of
`fs` whose age does not exceed the expiration horizon. -/
def expireList (expiration idx : ℤ) (fs : List FVG) : List FVG :=
  fs.filter fun f => decide (idx - f.created_at ≤ expiration)

/-- The Bullish branch of step 2 of `FVGManager.update`: the (zero- or
one-element) list of new Bullish zones.  The source's nested test
`low1 > high3` and `low1 - high3 > 0` collapses to the single strict
comparison. -/
def newBullish (low1 high3 : ℚ) (idx : ℤ) (t : ℕ) : List FVG :=
  if high3 < low1 then
    [{ top := low1, bottom := high3, is_bullish := true, created_at := idx,
       created_time := t }]
  else []

/-- The Bearish branch of step 2 of `FVGManager.update`. -/
def newBearish (high1 low3 : ℚ) (idx : ℤ) (t : ℕ) : List FVG :=
  if high1 < low3 then
    [{ top := low3, bottom := high1, is_bullish := false, created_at := idx,
       created_time := t }]
  else []

/-- The zone list entering step 3 of `FVGManager.update`: surviving active
zones followed by the freshly detected ones. -/
def detectedList (m : FVGManager) (idx : ℤ) (t : ℕ)
    (low1 high3 high1 low3 : ℚ) : List FVG :=
  expireList m.expiration idx m.active_fvgs ++ newBullish low1 high3 idx t ++
    newBearish high1 low3 idx t

/-- Marking a zone as inverted (`f.inverted = True` in the source). -/
def markInverted (f : FVG) : FVG :=
  { f with inverted := true }

/-- The spec's Bullish structure-shift condition at bar `T`, written from
the spec sentence: the close crosses strictly above the most recent
confirmed swing-high level (the forward-filled level as of bar `T - 1`),
having been at or below it on the previous bar. -/
def SpecBullishShift (close : List ℚ) (swing_highs : List (Option ℚ))
    (T : ℕ) : Prop :=
  ∃ level cT cp, (ffill swing_highs).get? (T - 1) = some (some level) ∧
    close.get? T = some cT ∧ close.get? (T - 1) = some cp ∧
    level < cT ∧ cp ≤ level

/-- The spec's Bearish structure-shift condition at bar `T`, the mirror of
`SpecBullishShift` against the swing-low level. -/
def SpecBearishShift (close : List ℚ) (swing_lows : List (Option ℚ))
    (T : ℕ) : Prop :=
  ∃ level cT cp, (ffill swing_lows).get? (T - 1) = some (some level) ∧
    close.get? T = some cT ∧ close.get? (T - 1) = some cp ∧
    cT < level ∧ level ≤ cp

/-- The claim's close-through (inversion) condition on a zone, as a
proposition: a Bullish zone's close is below its bottom, a Bearish zone's
close is above its top. -/
def ClosesThrough (price_close : ℚ) (f : FVG) : Prop :=
  (f.is_bullish = true ∧ price_close < f.bottom) ∨
    (f.is_bullish = false ∧ f.top < price_close)

/-- The per-bar driving loop of `strategies/ifvg.py.next`: bars before the
warmup count `w` do nothing (`if len(self.data) < 200: return`); from then
on each bar `k` calls `update` on the prefix of the series up to and
including bar `k`, with `current_idx = k`.  `runFVG … n` is the state after
the first `n` bars. -/
def runFVG (m0 : FVGManager) (high low close : List ℚ) (w : Nat)
    (times : Nat → ℕ) : Nat → Option FVGManager
  | 0 => some m0
  | k + 1 =>
    (runFVG m0 high low close w times k).bind fun m =>
      if k + 1 < w then some m
      else m.update (high.take (k + 1)) (low.take (k + 1)) (close.take (k + 1))
        k (times k)

end Smc

namespace Indicators

/-- The `status` strings of `lib/indicators/fvg_manager.py`. -/
inductive Status where
  | ACTIVE
  | MITIGATED
  | INVERTED
  deriving Repr, DecidableEq

/-- One row of the OHLC `DataFrame` (`High`, `Low`, `Close` columns; `name`
is the row's timestamp index). -/
structure Candle where
  High : ℚ
  Low : ℚ
  Close : ℚ
  name : ℕ := 0
  deriving Repr, DecidableEq

/-- The `FVG` dataclass of `lib/indicators/fvg_manager.py`. -/
structure FVG where
  index : ℕ
  top : ℚ
  bottom : ℚ
  is_bullish : Bool
  status : Status := .ACTIVE
  creation_time : ℕ := 0
  deriving Repr, DecidableEq

/-- State of `lib/indicators/fvg_manager.py`'s `FVGManager`: the zone list
and the configurable minimum gap size. -/
structure FVGManager where
  fvgs : List FVG := []
  min_gap_points : ℚ := 1 / 4
  deriving Repr, DecidableEq

/-- Detection, `FVGManager.scan_for_new_fvg(df, i)`: guarded no-op for `i < 2`,
otherwise compares candle `i` with candle `i-2`; the Bearish test is an
`elif` of the Bullish one, and the gap-size test is **non-strict**
(`gap_size >= self.min_gap_points`).  Returns the new manager state and
the optional new zone; `none` overall models an out-of-range `iloc`. -/
def FVGManager.scan_for_new_fvg (m : FVGManager) (df : List Candle) (i : ℕ) :
    Option (FVGManager × Option FVG) :=
  if i < 2 then some (m, none)
  else
    match df.get? i, df.get? (i - 2) with
    | some c_current, some c_prev2 =>
      let new_fvg : Option FVG :=
        if c_prev2.High < c_current.Low then
          if m.min_gap_points ≤ c_current.Low - c_prev2.High then
            some { index := i, top := c_current.Low, bottom := c_prev2.High,
                   is_bullish := true, creation_time := c_current.name }
          else none
        else if c_current.High < c_prev2.Low then
          if m.min_gap_points ≤ c_prev2.Low - c_current.High then
            some { index := i, top := c_prev2.Low, bottom := c_current.High,
                   is_bullish := false, creation_time := c_current.name }
          else none
        else none
      match new_fvg with
      | some f => some ({ m with fvgs := m.fvgs ++ [f] }, some f)
      | none => some (m, none)
    | _, _ => none

/-- The per-zone body of `FVGManager.update_fvg_states`: `MITIGATED` zones
are skipped; an `ACTIVE` Bullish zone becomes `INVERTED` when the close is
below its bottom, an `ACTIVE` Bearish zone when the close is above its
top. -/
def updateState (close_price : ℚ) (fvg : FVG) : FVG :=
  if fvg.status = .MITIGATED then fvg
  else if fvg.is_bullish ∧ fvg.status = .ACTIVE then
    if close_price < fvg.bottom then { fvg with status := .INVERTED } else fvg
  else if ¬fvg.is_bullish ∧ fvg.status = .ACTIVE then
    if fvg.top < close_price then { fvg with status := .INVERTED } else fvg
  else fvg

/-- State update, `FVGManager.update_fvg_states(current_candle)`: apply the
inversion logic to every tracked zone in place. -/
def FVGManager.update_fvg_states (m : FVGManager) (current_candle : Candle) :
    FVGManager :=
  { m with fvgs := m.fvgs.map (updateState current_candle.Close) }

end Indicators

namespace Strategy

/-- Reading `zone.traded` on an `lib/smc.py` `FVG`: Python attribute
lookup succeeds only if the attribute was ever assigned; the dataclass
declares no `traded` field, so on a fresh zone this raises
`AttributeError`, modelled as `Except.error`. -/
def readTraded (zone : Smc.FVG) : Except String Bool :=
  match zone.traded with
  | some b => Except.ok b
  | none => Except.error "AttributeError"

/-- The assignment `zone.traded = True`, as executed by `IFVGStrategy.entry_short_limit`
and `entry_long_limit` (and `pre_market_sweep.py`): assigns the dynamic
attribute. -/
def markTraded (zone : Smc.FVG) : Smc.FVG :=
  { zone with traded := some true }

/-- The tradable-zone scan inlined in `IFVGStrategy.next` lines 135-136:
walk the inverted registry and keep the zones whose `traded` read comes
back `False`; the first zone whose `traded` attribute is unset aborts with
`AttributeError`. -/
def tradableZones : List Smc.FVG → Except String (List Smc.FVG)
  | [] => Except.ok []
  | z :: zs =>
    match readTraded z with
    | Except.error e => Except.error e
    | Except.ok b =>
      match tradableZones zs with
      | Except.error e => Except.error e
      | Except.ok rest => Except.ok (if b then rest else z :: rest)

end Strategy

namespace Smc

lemma listMax_eq_none {xs : List ℚ} : listMax xs = none ↔ xs = [] := by
  cases xs with
  | nil => simp [listMax]
  | cons x xs =>
    rw [listMax]
    cases listMax xs <;> simp

lemma listMax_mem {xs : List ℚ} {m : ℚ} (h : listMax xs = some m) : m ∈ xs := by
  induction xs generalizing m with
  | nil => simp [listMax] at h
  | cons x xs ih =>
    rw [listMax] at h
    cases hx : listMax xs with
    | none =>
      rw [hx] at h
      simp only [Option.some.injEq] at h
      simp [h.symm]
    | some k =>
      rw [hx] at h
      simp only [Option.some.injEq] at h
      rcases max_choice x k with hm | hm
      · rw [hm] at h
        simp [h.symm]
      · rw [hm] at h
        exact List.mem_cons_of_mem x (ih (h ▸ hx))

lemma le_listMax {xs : List ℚ} {m : ℚ} (h : listMax xs = some m) :
    ∀ y ∈ xs, y ≤ m := by
  induction xs generalizing m with
  | nil => simp
  | cons x xs ih =>
    rw [listMax] at h
    cases hx : listMax xs with
    | none =>
      rw [hx] at h
      simp only [Option.some.injEq] at h
      rw [listMax_eq_none] at hx
      subst hx
      simp [h.symm]
    | some k =>
      rw [hx] at h
      simp only [Option.some.injEq] at h
      intro y hy
      rcases List.mem_cons.mp hy with rfl | hy
      · exact h ▸ le_max_left y k
      · exact le_trans (ih hx y hy) (h ▸ le_max_right x k)

lemma listMax_eq_of {xs : List ℚ} {y : ℚ} (hy : y ∈ xs)
    (hub : ∀ z ∈ xs, z ≤ y) : listMax xs = some y := by
  cases hx : listMax xs with
  | none =>
    rw [listMax_eq_none] at hx
    subst hx
    simp at hy
  | some m =>
    exact congrArg some (le_antisymm (hub m (listMax_mem hx)) (le_listMax hx y hy))

lemma listMin_eq_none {xs : List ℚ} : listMin xs = none ↔ xs = [] := by
  cases xs with
  | nil => simp [listMin]
  | cons x xs =>
    rw [listMin]
    cases listMin xs <;> simp

lemma listMin_mem {xs : List ℚ} {m : ℚ} (h : listMin xs = some m) : m ∈ xs := by
  induction xs generalizing m with
  | nil => simp [listMin] at h
  | cons x xs ih =>
    rw [listMin] at h
    cases hx : listMin xs with
    | none =>
      rw [hx] at h
      simp only [Option.some.injEq] at h
      simp [h.symm]
    | some k =>
      rw [hx] at h
      simp only [Option.some.injEq] at h
      rcases min_choice x k with hm | hm
      · rw [hm] at h
        simp [h.symm]
      · rw [hm] at h
        exact List.mem_cons_of_mem x (ih (h ▸ hx))

lemma listMin_le {xs : List ℚ} {m : ℚ} (h : listMin xs = some m) :
    ∀ y ∈ xs, m ≤ y := by
  induction xs generalizing m with
  | nil => simp
  | cons x xs ih =>
    rw [listMin] at h
    cases hx : listMin xs with
    | none =>
      rw [hx] at h
      simp only [Option.some.injEq] at h
      rw [listMin_eq_none] at hx
      subst hx
      simp [h.symm]
    | some k =>
      rw [hx] at h
      simp only [Option.some.injEq] at h
      intro y hy
      rcases List.mem_cons.mp hy with rfl | hy
      · exact h ▸ min_le_left y k
      · exact le_trans (h ▸ min_le_right x k) (ih hx y hy)

lemma listMin_eq_of {xs : List ℚ} {y : ℚ} (hy : y ∈ xs)
    (hlb : ∀ z ∈ xs, y ≤ z) : listMin xs = some y := by
  cases hx : listMin xs with
  | none =>
    rw [listMin_eq_none] at hx
    subst hx
    simp at hy
  | some m =>
    exact congrArg some (le_antisymm (listMin_le hx y hy) (hlb m (listMin_mem hx)))

lemma mem_rollingWindow_iff {xs : List ℚ} {w i : ℕ} (hw : w ≤ i + 1)
    (hi : i < xs.length) {y : ℚ} :
    y ∈ rollingWindow xs w i ↔
      ∃ j, i + 1 - w ≤ j ∧ j ≤ i ∧ xs.get? j = some y := by
  have haw : i + 1 - w + w = i + 1 := by omega
  unfold rollingWindow
  constructor
  · intro hy
    obtain ⟨n, hn⟩ := List.mem_iff_get?.mp hy
    have hlen : n < ((xs.drop (i + 1 - w)).take w).length := by
      rcases List.get?_eq_some.mp hn with ⟨hl, _⟩
      exact hl
    have hnw : n < w := lt_of_lt_of_le hlen (by simp [List.length_take])
    rw [List.get?_take hnw, List.get?_drop] at hn
    exact ⟨i + 1 - w + n, Nat.le_add_right _ _, by omega, hn⟩
  · rintro ⟨j, hj1, hj2, hj⟩
    have hnw : j - (i + 1 - w) < w := by omega
    have : ((xs.drop (i + 1 - w)).take w).get? (j - (i + 1 - w)) = some y := by
      rw [List.get?_take hnw, List.get?_drop]
      rw [show i + 1 - w + (j - (i + 1 - w)) = j by omega]
      exact hj
    exact List.get?_mem this

lemma invertCond_iff {pc : ℚ} {f : FVG} :
    invertCond pc f = true ↔ ClosesThrough pc f := by
  unfold invertCond ClosesThrough
  cases hb : f.is_bullish <;> simp [hb]

lemma foldl_inversionStep (pc : ℚ) : ∀ (fs a b : List FVG),
    fs.foldl (inversionStep pc) (a, b) =
      (a ++ fs.filter (fun f => !(invertCond pc f)),
       b ++ (fs.filter (invertCond pc)).map markInverted) := by
  intro fs
  induction fs with
  | nil => simp
  | cons f fs ih =>
    intro a b
    rw [List.foldl_cons]
    have hstep : inversionStep pc (a, b) f =
        if invertCond pc f then (a, b ++ [markInverted f]) else (a ++ [f], b) := rfl
    by_cases hc : invertCond pc f = true
    · rw [hstep, if_pos hc, ih]
      simp [List.filter_cons, hc, List.append_assoc]
    · rw [hstep, if_neg hc, ih]
      simp [List.filter_cons, hc, List.append_assoc]

lemma update_eq {m : FVGManager} {dh dl dc : List ℚ} {idx : ℤ} {t : ℕ}
    {low1 high3 high1 low3 close1 : ℚ}
    (h1 : ilocLast dl 1 = some low1) (h2 : ilocLast dh 3 = some high3)
    (h3 : ilocLast dh 1 = some high1) (h4 : ilocLast dl 3 = some low3)
    (h5 : ilocLast dc 1 = some close1) :
    m.update dh dl dc idx t =
      some { expiration := m.expiration,
             active_fvgs := (detectedList m idx t low1 high3 high1 low3).filter
               fun f => !(invertCond close1 f),
             inverted_fvgs := expireList m.expiration idx m.inverted_fvgs ++
               ((detectedList m idx t low1 high3 high1 low3).filter
                 (invertCond close1)).map markInverted } := by
  simp only [FVGManager.update, h1, h2, h3, h4, h5]
  unfold detectedList expireList newBullish newBearish
  by_cases hb : high3 < low1 <;> by_cases hs : high1 < low3
  · rw [if_pos hb, if_pos (sub_pos.mpr hb), if_pos hs, if_pos (sub_pos.mpr hs),
      foldl_inversionStep, if_pos hb, if_pos hs]
    simp [List.append_assoc]
  · rw [if_pos hb, if_pos (sub_pos.mpr hb), if_neg hs,
      foldl_inversionStep, if_pos hb, if_neg hs]
    simp [List.append_assoc]
  · rw [if_neg hb, if_pos hs, if_pos (sub_pos.mpr hs),
      foldl_inversionStep, if_neg hb, if_pos hs]
    simp [List.append_assoc]
  · rw [if_neg hb, if_neg hs, foldl_inversionStep, if_neg hb, if_neg hs]
    simp [List.append_assoc]

lemma update_isSome_iloc {m : FVGManager} {dh dl dc : List ℚ} {idx : ℤ} {t : ℕ}
    {m' : FVGManager} (hup : m.update dh dl dc idx t = some m') :
    ∃ low1 high3 high1 low3 close1,
      ilocLast dl 1 = some low1 ∧ ilocLast dh 3 = some high3 ∧
      ilocLast dh 1 = some high1 ∧ ilocLast dl 3 = some low3 ∧
      ilocLast dc 1 = some close1 := by
  cases e1 : ilocLast dl 1 <;> cases e2 : ilocLast dh 3 <;>
    cases e3 : ilocLast dh 1 <;> cases e4 : ilocLast dl 3 <;>
    cases e5 : ilocLast dc 1 <;>
    simp only [FVGManager.update, e1, e2, e3, e4, e5] at hup <;>
    first
      | exact ⟨_, _, _, _, _, rfl, rfl, rfl, rfl, rfl⟩
      | exact Option.noConfusion hup

lemma mem_detectedList {m : FVGManager} {idx : ℤ} {t : ℕ}
    {low1 high3 high1 low3 : ℚ} {f : FVG}
    (hf : f ∈ detectedList m idx t low1 high3 high1 low3) :
    (f ∈ m.active_fvgs ∧ idx - f.created_at ≤ m.expiration) ∨
    (high3 < low1 ∧ f = { top := low1, bottom := high3, is_bullish := true,
                          created_at := idx, created_time := t }) ∨
    (high1 < low3 ∧ f = { top := low3, bottom := high1, is_bullish := false,
                          created_at := idx, created_time := t }) := by
  unfold detectedList expireList newBullish newBearish at hf
  rcases List.mem_append.mp hf with hf | hf
  · rcases List.mem_append.mp hf with hf | hf
    · rcases List.mem_filter.mp hf with ⟨hmem, hage⟩
      exact Or.inl ⟨hmem, by simpa using hage⟩
    · by_cases hb : high3 < low1
      · rw [if_pos hb] at hf
        simp only [List.mem_singleton] at hf
        exact Or.inr (Or.inl ⟨hb, hf⟩)
      · rw [if_neg hb] at hf
        simp at hf
  · by_cases hs : high1 < low3
    · rw [if_pos hs] at hf
      simp only [List.mem_singleton] at hf
      exact Or.inr (Or.inr ⟨hs, hf⟩)
    · rw [if_neg hs] at hf
      simp at hf

lemma detectedList_sub {m : FVGManager} {idx : ℤ} {t : ℕ}
    {low1 high3 high1 low3 : ℚ} {f : FVG} (hmem : f ∈ m.active_fvgs)
    (hage : idx - f.created_at ≤ m.expiration) :
    f ∈ detectedList m idx t low1 high3 high1 low3 := by
  unfold detectedList expireList
  exact List.mem_append.mpr (Or.inl (List.mem_append.mpr (Or.inl
    (List.mem_filter.mpr ⟨hmem, by simpa using hage⟩))))

end Smc

namespace Smc

lemma bull_mem_detectedList {m : FVGManager} {idx : ℤ} {t : ℕ}
    {low1 high3 high1 low3 : ℚ} (hb : high3 < low1) :
    ({ top := low1, bottom := high3, is_bullish := true, created_at := idx,
       created_time := t } : FVG) ∈ detectedList m idx t low1 high3 high1 low3 := by
  unfold detectedList newBullish
  refine List.mem_append.mpr (Or.inl (List.mem_append.mpr (Or.inr ?_)))
  rw [if_pos hb]
  simp

lemma bear_mem_detectedList {m : FVGManager} {idx : ℤ} {t : ℕ}
    {low1 high3 high1 low3 : ℚ} (hs : high1 < low3) :
    ({ top := low3, bottom := high1, is_bullish := false, created_at := idx,
       created_time := t } : FVG) ∈ detectedList m idx t low1 high3 high1 low3 := by
  unfold detectedList newBearish
  refine List.mem_append.mpr (Or.inr ?_)
  rw [if_pos hs]
  simp

end Smc

namespace Indicators

lemma updateState_fields (cp : ℚ) (f : FVG) :
    (updateState cp f).top = f.top ∧ (updateState cp f).bottom = f.bottom ∧
      (updateState cp f).is_bullish = f.is_bullish ∧
      (updateState cp f).index = f.index := by
  unfold updateState
  split_ifs <;> simp

lemma scan_eq {m : FVGManager} {df : List Candle} {i : ℕ}
    {cc cp : Candle} (h2 : 2 ≤ i)
    (hc : df.get? i = some cc) (hp : df.get? (i - 2) = some cp) :
    m.scan_for_new_fvg df i =
      if cp.High < cc.Low then
        if m.min_gap_points ≤ cc.Low - cp.High then
          some ({ m with fvgs := m.fvgs ++
                    [{ index := i, top := cc.Low, bottom := cp.High,
                       is_bullish := true, creation_time := cc.name }] },
                some { index := i, top := cc.Low, bottom := cp.High,
                       is_bullish := true, creation_time := cc.name })
        else some (m, none)
      else if cc.High < cp.Low then
        if m.min_gap_points ≤ cp.Low - cc.High then
          some ({ m with fvgs := m.fvgs ++
                    [{ index := i, top := cp.Low, bottom := cc.High,
                       is_bullish := false, creation_time := cc.name }] },
                some { index := i, top := cp.Low, bottom := cc.High,
                       is_bullish := false, creation_time := cc.name })
        else some (m, none)
      else some (m, none) := by
  unfold FVGManager.scan_for_new_fvg
  rw [if_neg (by omega : ¬i < 2), hc, hp]
  dsimp only
  by_cases hb : cp.High < cc.Low
  · rw [if_pos hb, if_pos hb]
    by_cases ht : m.min_gap_points ≤ cc.Low - cp.High
    · rw [if_pos ht, if_pos ht]
    · rw [if_neg ht, if_neg ht]
  · rw [if_neg hb, if_neg hb]
    by_cases hs : cc.High < cp.Low
    · rw [if_pos hs, if_pos hs]
      by_cases ht : m.min_gap_points ≤ cp.Low - cc.High
      · rw [if_pos ht, if_pos ht]
      · rw [if_neg ht, if_neg ht]
    · rw [if_neg hs, if_neg hs]

end Indicators

/-- C7: after the engine ingests the bar at index `idx`, every zone whose
age `idx - created_at` strictly exceeds the (nonnegative, as configured)
expiration horizon is absent from both the active and the inverted
registries, regardless of its prior status.  This is step 1 of
`FVGManager.update` in `lib/smc.py`. -/
theorem expiration_spec (m m' : Smc.FVGManager) (dh dl dc : List ℚ)
    (idx : ℤ) (t : ℕ) (hexp : 0 ≤ m.expiration)
    (hup : m.update dh dl dc idx t = some m') :
    ∀ f : Smc.FVG, m.expiration < idx - f.created_at →
      f ∉ m'.active_fvgs ∧ f ∉ m'.inverted_fvgs := by
  obtain ⟨low1, high3, high1, low3, close1, e1, e2, e3, e4, e5⟩ :=
    Smc.update_isSome_iloc hup
  rw [Smc.update_eq e1 e2 e3 e4 e5] at hup
  obtain rfl := (Option.some.inj hup).symm
  intro f hage
  constructor
  · intro hf
    rcases Smc.mem_detectedList (List.mem_filter.mp hf).1 with ⟨_, hle⟩ | h | h
    · omega
    · rw [h.2] at hage
      simp at hage
      omega
    · rw [h.2] at hage
      simp at hage
      omega
  · intro hf
    rcases List.mem_append.mp hf with hf | hf
    · have hle : idx - f.created_at ≤ m.expiration := by
        simpa using (List.mem_filter.mp hf).2
      omega
    · obtain ⟨g, hg, rfl⟩ := List.mem_map.mp hf
      have hca : (Smc.markInverted g).created_at = g.created_at := rfl
      rw [hca] at hage
      rcases Smc.mem_detectedList (List.mem_filter.mp hg).1 with ⟨_, hle⟩ | h | h
      · omega
      · rw [h.2] at hage
        simp at hage
        omega
      · rw [h.2] at hage
        simp at hage
        omega

/-- C7 witness: a zone created at index 0 under horizon 5 is absent from
both registries after the bar at index 6 is ingested. -/
theorem expiration_spec_witness :
    (⟨10, 5, true, 0, 0, false, none⟩ : Smc.FVG) ∉
        (⟨5, [], []⟩ : Smc.FVGManager).active_fvgs ∧
      (⟨10, 5, true, 0, 0, false, none⟩ : Smc.FVG) ∉
        (⟨5, [], []⟩ : Smc.FVGManager).inverted_fvgs :=
  expiration_spec ⟨5, [⟨10, 5, true, 0, 0, false, none⟩], []⟩ ⟨5, [], []⟩
    [6, 6, 6] [5, 5, 5] [5, 5, 6] 6 0 (by decide) (by decide) _ (by decide)

/-- C1 counterexample: the claim's invalidation step does not exist in
`FVGManager.update` of `lib/smc.py`.  An Inverted zone that originated as
Bullish (`top = 2`, `bottom = 1`) sees the bar close at 3, back above its
top, yet it is still present in the inverted registry after the update. -/
theorem smc_update_keeps_falsified_inverted_zone :
    Smc.FVGManager.update ⟨100, [], [⟨2, 1, true, 0, 0, true, none⟩]⟩
        [10, 10, 10] [5, 5, 5] [5, 5, 3] 1 0 =
      some ⟨100, [], [⟨2, 1, true, 0, 0, true, none⟩]⟩ ∧
    Smc.ilocLast [5, 5, 3] 1 = some 3 ∧ (2 : ℚ) < 3 := by
  refine ⟨by decide, by decide, by decide⟩

/-- C1 amended: each call of `FVGManager.update` performs, in this fixed
order, (1) expiration, (2) detection of new gap zones from the last three
bars, (3) inversion of remaining Active zones; there is no invalidation
step: an Inverted zone that survives expiration stays in the inverted
registry no matter where the bar closes. -/
theorem smc_update_no_invalidation_step (m m' : Smc.FVGManager)
    (dh dl dc : List ℚ) (idx : ℤ) (t : ℕ)
    (hup : m.update dh dl dc idx t = some m') :
    ∀ f ∈ m.inverted_fvgs,
      f ∈ m'.inverted_fvgs ∨ m.expiration < idx - f.created_at := by
  obtain ⟨low1, high3, high1, low3, close1, e1, e2, e3, e4, e5⟩ :=
    Smc.update_isSome_iloc hup
  rw [Smc.update_eq e1 e2 e3 e4 e5] at hup
  obtain rfl := (Option.some.inj hup).symm
  intro f hf
  by_cases hage : idx - f.created_at ≤ m.expiration
  · refine Or.inl (List.mem_append.mpr (Or.inl ?_))
    unfold Smc.expireList
    exact List.mem_filter.mpr ⟨hf, by simpa using hage⟩
  · exact Or.inr (by omega)

/-- C1 amended witness: a surviving Inverted zone is retained through an
update even though the close falsifies the inversion. -/
theorem smc_update_no_invalidation_step_witness :
    (⟨2, 1, true, 0, 0, true, none⟩ : Smc.FVG) ∈
        (⟨100, [], [⟨2, 1, true, 0, 0, true, none⟩]⟩ : Smc.FVGManager).inverted_fvgs ∨
      (100 : ℤ) < 1 - 0 := by
  have h := smc_update_no_invalidation_step
    ⟨100, [], [⟨2, 1, true, 0, 0, true, none⟩]⟩
    ⟨100, [], [⟨2, 1, true, 0, 0, true, none⟩]⟩
    [10, 10, 10] [5, 5, 5] [5, 5, 3] 1 0 (by decide)
    ⟨2, 1, true, 0, 0, true, none⟩ (by decide)
  exact h

/-- C3 counterexample: called with fewer than 3 bars of history,
`FVGManager.update` of `lib/smc.py` is not a no-op with empty outputs: the
`iloc[-3]` access goes out of bounds (an `IndexError`, modelled as
`none`). -/
theorem smc_update_short_history_errors :
    Smc.FVGManager.update ⟨100, [], []⟩ [1, 2] [0, 1] [1, 1] 5 0 = none := by
  decide

/-- C3 amended: with fewer than 3 bars the `lib/smc.py` engine's update
fails (out-of-bounds `iloc[-3]`) instead of being a no-op — its callers
must guard — while the `lib/indicators/fvg_manager.py` scan at `i < 2`
really is a guarded no-op returning `None` with unchanged state. -/
theorem short_history_behavior :
    (∀ (m : Smc.FVGManager) (dh dl dc : List ℚ) (idx : ℤ) (t : ℕ),
       dh.length < 3 → m.update dh dl dc idx t = none) ∧
    (∀ (m : Indicators.FVGManager) (df : List Indicators.Candle) (i : ℕ),
       i < 2 → m.scan_for_new_fvg df i = some (m, none)) := by
  constructor
  · intro m dh dl dc idx t hlen
    have h2 : Smc.ilocLast dh 3 = none := by
      unfold Smc.ilocLast
      rw [if_neg]
      omega
    cases e1 : Smc.ilocLast dl 1 <;> cases e3 : Smc.ilocLast dh 1 <;>
      cases e4 : Smc.ilocLast dl 3 <;> cases e5 : Smc.ilocLast dc 1 <;>
      simp [Smc.FVGManager.update, e1, h2, e3, e4, e5]
  · intro m df i hi
    unfold Indicators.FVGManager.scan_for_new_fvg
    rw [if_pos hi]

/-- C3 amended witness: a one-bar history makes the smc update fail, and
the indicators scan at index 1 is a no-op. -/
theorem short_history_behavior_witness :
    Smc.FVGManager.update ⟨100, [], []⟩ [1] [0] [1] 0 0 = none ∧
      Indicators.FVGManager.scan_for_new_fvg ⟨[], 1⟩ [⟨10, 9, 9, 0⟩] 1 =
        some (⟨[], 1⟩, none) :=
  ⟨short_history_behavior.1 ⟨100, [], []⟩ [1] [0] [1] 0 0 (by decide),
   short_history_behavior.2 ⟨[], 1⟩ [⟨10, 9, 9, 0⟩] 1 (by decide)⟩

/-- C10: the `FVG` dataclass of `lib/smc.py` declares no `traded` field,
so the tradable-zone scan of `IFVGStrategy.next` (`if ifvg.traded:
continue`) raises `AttributeError` on the very first zone the engine ever
constructs — the flag is not readable before it is marked.  Here the
engine creates a Bullish zone at index 2 that immediately inverts, and the
strategy's scan over the inverted registry fails. -/
theorem traded_attribute_read_fails :
    Smc.FVGManager.update ⟨100, [], []⟩ [6, 8, 12] [5, 7, 10] [5, 7, 4] 2 0 =
      some ⟨100, [], [⟨10, 6, true, 2, 0, true, none⟩]⟩ ∧
    Strategy.tradableZones [⟨10, 6, true, 2, 0, true, none⟩] =
      Except.error "AttributeError" :=
  ⟨by norm_num [Smc.FVGManager.update, Smc.ilocLast, Smc.inversionStep,
      Smc.invertCond, Smc.markInverted], rfl⟩

/-- C8: every zone either manager ever constructs satisfies `top > bottom`
at construction, and no operation ever mutates `top` or `bottom` into
violation: the invariant is preserved by `FVGManager.update` of
`lib/smc.py` (including the zones it creates), by `scan_for_new_fvg`
(including the zone it returns), and by `update_fvg_states` of
`lib/indicators/fvg_manager.py`. -/
theorem top_gt_bottom_invariant :
    (∀ (m m' : Smc.FVGManager) (dh dl dc : List ℚ) (idx : ℤ) (t : ℕ),
       (∀ f ∈ m.active_fvgs, f.bottom < f.top) →
       (∀ f ∈ m.inverted_fvgs, f.bottom < f.top) →
       m.update dh dl dc idx t = some m' →
       (∀ f ∈ m'.active_fvgs, f.bottom < f.top) ∧
         (∀ f ∈ m'.inverted_fvgs, f.bottom < f.top)) ∧
    (∀ (m m' : Indicators.FVGManager) (df : List Indicators.Candle) (i : ℕ)
       (r : Option Indicators.FVG),
       (∀ f ∈ m.fvgs, f.bottom < f.top) →
       m.scan_for_new_fvg df i = some (m', r) →
       (∀ f ∈ m'.fvgs, f.bottom < f.top) ∧
         (∀ z, r = some z → z.bottom < z.top)) ∧
    (∀ (m : Indicators.FVGManager) (c : Indicators.Candle),
       (∀ f ∈ m.fvgs, f.bottom < f.top) →
       ∀ f ∈ (m.update_fvg_states c).fvgs, f.bottom < f.top) := by
  refine ⟨?_, ?_, ?_⟩
  · intro m m' dh dl dc idx t hA hI hup
    obtain ⟨low1, high3, high1, low3, close1, e1, e2, e3, e4, e5⟩ :=
      Smc.update_isSome_iloc hup
    rw [Smc.update_eq e1 e2 e3 e4 e5] at hup
    obtain rfl := (Option.some.inj hup).symm
    have hdet : ∀ f ∈ Smc.detectedList m idx t low1 high3 high1 low3,
        f.bottom < f.top := by
      intro f hf
      rcases Smc.mem_detectedList hf with ⟨hm, _⟩ | ⟨hb, rfl⟩ | ⟨hs, rfl⟩
      · exact hA f hm
      · exact hb
      · exact hs
    constructor
    · intro f hf
      exact hdet f (List.mem_filter.mp hf).1
    · intro f hf
      rcases List.mem_append.mp hf with hf | hf
      · exact hI f (List.mem_filter.mp hf).1
      · obtain ⟨g, hg, rfl⟩ := List.mem_map.mp hf
        exact hdet g (List.mem_filter.mp hg).1
  · intro m m' df i r hA hscan
    by_cases hi : i < 2
    · unfold Indicators.FVGManager.scan_for_new_fvg at hscan
      rw [if_pos hi] at hscan
      have h1 := Option.some.inj hscan
      rw [Prod.mk.injEq] at h1
      obtain ⟨rfl, rfl⟩ := h1
      exact ⟨hA, fun z hz => Option.noConfusion hz⟩
    · cases hc : df.get? i with
      | none =>
        unfold Indicators.FVGManager.scan_for_new_fvg at hscan
        rw [if_neg hi, hc] at hscan
        cases hp : df.get? (i - 2) <;> rw [hp] at hscan <;>
          exact Option.noConfusion hscan
      | some cc =>
        cases hp : df.get? (i - 2) with
        | none =>
          unfold Indicators.FVGManager.scan_for_new_fvg at hscan
          rw [if_neg hi, hc, hp] at hscan
          exact Option.noConfusion hscan
        | some cp =>
          rw [Indicators.scan_eq (by omega) hc hp] at hscan
          by_cases hb : cp.High < cc.Low
          · rw [if_pos hb] at hscan
            by_cases ht : m.min_gap_points ≤ cc.Low - cp.High
            · rw [if_pos ht] at hscan
              have h1 := Option.some.inj hscan
              rw [Prod.mk.injEq] at h1
              obtain ⟨rfl, rfl⟩ := h1
              refine ⟨?_, ?_⟩
              · intro f hf
                rcases List.mem_append.mp hf with hf | hf
                · exact hA f hf
                · rw [List.mem_singleton] at hf
                  rw [hf]
                  simpa using hb
              · intro z hz
                obtain rfl := (Option.some.inj hz).symm
                simpa using hb
            · rw [if_neg ht] at hscan
              have h1 := Option.some.inj hscan
              rw [Prod.mk.injEq] at h1
              obtain ⟨rfl, rfl⟩ := h1
              exact ⟨hA, fun z hz => Option.noConfusion hz⟩
          · rw [if_neg hb] at hscan
            by_cases hs : cc.High < cp.Low
            · rw [if_pos hs] at hscan
              by_cases ht : m.min_gap_points ≤ cp.Low - cc.High
              · rw [if_pos ht] at hscan
                have h1 := Option.some.inj hscan
                rw [Prod.mk.injEq] at h1
                obtain ⟨rfl, rfl⟩ := h1
                refine ⟨?_, ?_⟩
                · intro f hf
                  rcases List.mem_append.mp hf with hf | hf
                  · exact hA f hf
                  · rw [List.mem_singleton] at hf
                    rw [hf]
                    simpa using hs
                · intro z hz
                  obtain rfl := (Option.some.inj hz).symm
                  simpa using hs
              · rw [if_neg ht] at hscan
                have h1 := Option.some.inj hscan
                rw [Prod.mk.injEq] at h1
                obtain ⟨rfl, rfl⟩ := h1
                exact ⟨hA, fun z hz => Option.noConfusion hz⟩
            · rw [if_neg hs] at hscan
              have h1 := Option.some.inj hscan
              rw [Prod.mk.injEq] at h1
              obtain ⟨rfl, rfl⟩ := h1
              exact ⟨hA, fun z hz => Option.noConfusion hz⟩
  · intro m c hA f hf
    obtain ⟨g, hg, rfl⟩ := List.mem_map.mp hf
    have h := Indicators.updateState_fields c.Close g
    rw [h.1, h.2.1]
    exact hA g hg

/-- C8 witness: the invariant propagates through a concrete update that
creates a Bullish zone with `top = 10 > 6 = bottom`. -/
theorem top_gt_bottom_invariant_witness :
    (∀ f ∈ (Smc.FVGManager.mk 100
        [⟨10, 6, true, 2, 0, false, none⟩] []).active_fvgs,
       f.bottom < f.top) ∧
    (∀ f ∈ (Smc.FVGManager.mk 100
        [⟨10, 6, true, 2, 0, false, none⟩] []).inverted_fvgs,
       f.bottom < f.top) :=
  top_gt_bottom_invariant.1 ⟨100, [], []⟩
    ⟨100, [⟨10, 6, true, 2, 0, false, none⟩], []⟩
    [6, 8, 12] [5, 7, 10] [5, 7, 11] 2 0 (by simp) (by simp)
    (by norm_num [Smc.FVGManager.update, Smc.ilocLast, Smc.inversionStep,
      Smc.invertCond, Smc.markInverted])

/-- C6: with `close1` the bar's closing price, an Active Bullish zone
becomes Inverted exactly when `close1 < bottom` and an Active Bearish zone
exactly when `close1 > top` (the close, never the high/low wick, is the
only price `update` consults); inversion is one-directional — an Inverted
zone surviving expiry is still Inverted after the bar, wherever the close
lies — and under the flag invariant the active and inverted registries
stay disjoint. -/
theorem inversion_lifecycle_spec (m m' : Smc.FVGManager) (dh dl dc : List ℚ)
    (idx : ℤ) (t : ℕ) (close1 : ℚ)
    (hup : m.update dh dl dc idx t = some m')
    (hclose : Smc.ilocLast dc 1 = some close1) :
    (∀ f ∈ m.active_fvgs, idx - f.created_at ≤ m.expiration →
       Smc.ClosesThrough close1 f → Smc.markInverted f ∈ m'.inverted_fvgs) ∧
    (∀ f ∈ m.active_fvgs, idx - f.created_at ≤ m.expiration →
       ¬Smc.ClosesThrough close1 f → f ∈ m'.active_fvgs) ∧
    (∀ f ∈ m'.active_fvgs, ¬Smc.ClosesThrough close1 f) ∧
    (∀ f ∈ m.inverted_fvgs, idx - f.created_at ≤ m.expiration →
       f ∈ m'.inverted_fvgs) ∧
    ((∀ f ∈ m.active_fvgs, f.inverted = false) →
     (∀ f ∈ m.inverted_fvgs, f.inverted = true) →
     (∀ f ∈ m'.active_fvgs, f.inverted = false) ∧
       (∀ f ∈ m'.inverted_fvgs, f.inverted = true) ∧
       ∀ f : Smc.FVG, ¬(f ∈ m'.active_fvgs ∧ f ∈ m'.inverted_fvgs)) := by
  obtain ⟨low1, high3, high1, low3, c', e1, e2, e3, e4, e5⟩ :=
    Smc.update_isSome_iloc hup
  rw [Smc.update_eq e1 e2 e3 e4 hclose] at hup
  obtain rfl := (Option.some.inj hup).symm
  refine ⟨?_, ?_, ?_, ?_, ?_⟩
  · intro f hf hage hct
    refine List.mem_append.mpr (Or.inr (List.mem_map.mpr ⟨f, ?_, rfl⟩))
    exact List.mem_filter.mpr
      ⟨Smc.detectedList_sub hf hage, Smc.invertCond_iff.mpr hct⟩
  · intro f hf hage hnc
    have hfalse : Smc.invertCond close1 f = false := by
      cases hb : Smc.invertCond close1 f
      · rfl
      · exact absurd (Smc.invertCond_iff.mp hb) hnc
    exact List.mem_filter.mpr
      ⟨Smc.detectedList_sub hf hage, by simp [hfalse]⟩
  · intro f hf
    have hb := (List.mem_filter.mp hf).2
    simp only [Bool.not_eq_true'] at hb
    intro hct
    rw [Smc.invertCond_iff.mpr hct] at hb
    exact Bool.noConfusion hb
  · intro f hf hage
    refine List.mem_append.mpr (Or.inl ?_)
    unfold Smc.expireList
    exact List.mem_filter.mpr ⟨hf, by simpa using hage⟩
  · intro hFA hFI
    have hact : ∀ f ∈ (Smc.detectedList m idx t low1 high3 high1 low3).filter
        (fun f => !(Smc.invertCond close1 f)), f.inverted = false := by
      intro f hf
      rcases Smc.mem_detectedList (List.mem_filter.mp hf).1 with
        ⟨hm, _⟩ | ⟨_, rfl⟩ | ⟨_, rfl⟩
      · exact hFA f hm
      · rfl
      · rfl
    have hinv : ∀ f ∈ Smc.expireList m.expiration idx m.inverted_fvgs ++
        ((Smc.detectedList m idx t low1 high3 high1 low3).filter
          (Smc.invertCond close1)).map Smc.markInverted, f.inverted = true := by
      intro f hf
      rcases List.mem_append.mp hf with hf | hf
      · exact hFI f (List.mem_filter.mp hf).1
      · obtain ⟨g, _, rfl⟩ := List.mem_map.mp hf
        rfl
    refine ⟨hact, hinv, ?_⟩
    rintro f ⟨hf1, hf2⟩
    have h1 := hact f hf1
    have h2 := hinv f hf2
    rw [h1] at h2
    exact Bool.noConfusion h2

/-- C6 witness: a concrete Active Bullish zone with bottom 5 inverts on a
bar closing at 4 and lands, marked, in the inverted registry. -/
theorem inversion_lifecycle_spec_witness :
    Smc.markInverted ⟨10, 5, true, 0, 0, false, none⟩ ∈
      (Smc.FVGManager.mk 100 [] [⟨10, 5, true, 0, 0, true, none⟩]).inverted_fvgs :=
  (inversion_lifecycle_spec ⟨100, [⟨10, 5, true, 0, 0, false, none⟩], []⟩
      ⟨100, [], [⟨10, 5, true, 0, 0, true, none⟩]⟩
      [6, 6, 6] [5, 5, 4] [5, 5, 4] 2 0 4
      (by norm_num [Smc.FVGManager.update, Smc.ilocLast, Smc.inversionStep,
        Smc.invertCond, Smc.markInverted])
      (by decide)).1
    ⟨10, 5, true, 0, 0, false, none⟩ (by decide) (by decide)
    (Or.inl ⟨rfl, by norm_num⟩)

/-- C4 counterexample: in `lib/indicators/fvg_manager.py` the gap-size
comparison is non-strict (`gap_size >= self.min_gap_points`).  With
`min_gap_points = 1` and a gap of exactly `11 - 10 = 1` — which does NOT
strictly exceed the threshold — a new Active Bullish zone is created
anyway. -/
theorem min_gap_threshold_nonstrict_cex :
    Indicators.FVGManager.scan_for_new_fvg ⟨[], 1⟩
        [⟨10, 9, 9, 0⟩, ⟨10, 9, 9, 1⟩, ⟨12, 11, 11, 2⟩] 2 =
      some (⟨[⟨2, 11, 10, true, Indicators.Status.ACTIVE, 2⟩], 1⟩,
            some ⟨2, 11, 10, true, Indicators.Status.ACTIVE, 2⟩) ∧
    ¬((11 : ℚ) - 10 > 1) := by
  constructor
  · norm_num [Indicators.FVGManager.scan_for_new_fvg]
  · norm_num

/-- C4 amended: with at least 3 bars, the indicators-module manager
creates a new Active zone iff the gap clears the configurable
`min_gap_points` threshold *non-strictly* (`>=`), with the Bearish window
test only evaluated when the Bullish one fails (it is an `elif`); the
smc-module manager creates a Bullish zone iff `low[-1] > high[-3]` and a
Bearish zone iff `high[-1] < low[-3]` — a strict comparison of the gap
against a fixed threshold of zero, not a configurable parameter. -/
theorem gap_creation_characterization :
    (∀ (m m' : Indicators.FVGManager) (df : List Indicators.Candle) (i : ℕ)
       (cc cp : Indicators.Candle) (r : Option Indicators.FVG),
       2 ≤ i → df.get? i = some cc → df.get? (i - 2) = some cp →
       m.scan_for_new_fvg df i = some (m', r) →
       ((∃ z, r = some z ∧ z.is_bullish = true) ↔
          cp.High < cc.Low ∧ m.min_gap_points ≤ cc.Low - cp.High) ∧
       ((∃ z, r = some z ∧ z.is_bullish = false) ↔
          ¬cp.High < cc.Low ∧ cc.High < cp.Low ∧
            m.min_gap_points ≤ cp.Low - cc.High)) ∧
    (∀ (m m' : Smc.FVGManager) (dh dl dc : List ℚ) (idx : ℤ) (t : ℕ)
       (low1 high3 high1 low3 : ℚ),
       Smc.ilocLast dl 1 = some low1 → Smc.ilocLast dh 3 = some high3 →
       Smc.ilocLast dh 1 = some high1 → Smc.ilocLast dl 3 = some low3 →
       m.update dh dl dc idx t = some m' →
       (∀ f ∈ m.active_fvgs, f.created_at ≠ idx) →
       (∀ f ∈ m.inverted_fvgs, f.created_at ≠ idx) →
       ((∃ f : Smc.FVG, (f ∈ m'.active_fvgs ∨ f ∈ m'.inverted_fvgs) ∧
           f.created_at = idx ∧ f.is_bullish = true) ↔ high3 < low1) ∧
       ((∃ f : Smc.FVG, (f ∈ m'.active_fvgs ∨ f ∈ m'.inverted_fvgs) ∧
           f.created_at = idx ∧ f.is_bullish = false) ↔ high1 < low3)) := by
  constructor
  · intro m m' df i cc cp r h2 hc hp hscan
    rw [Indicators.scan_eq h2 hc hp] at hscan
    by_cases hb : cp.High < cc.Low
    · rw [if_pos hb] at hscan
      by_cases ht : m.min_gap_points ≤ cc.Low - cp.High
      · rw [if_pos ht] at hscan
        have h1 := Option.some.inj hscan
        rw [Prod.mk.injEq] at h1
        obtain ⟨rfl, rfl⟩ := h1
        constructor
        · exact ⟨fun _ => ⟨hb, ht⟩, fun _ => ⟨_, rfl, rfl⟩⟩
        · constructor
          · rintro ⟨z, hz, hfalse⟩
            obtain rfl := (Option.some.inj hz).symm
            exact Bool.noConfusion hfalse
          · rintro ⟨hnb, _, _⟩
            exact absurd hb hnb
      · rw [if_neg ht] at hscan
        have h1 := Option.some.inj hscan
        rw [Prod.mk.injEq] at h1
        obtain ⟨rfl, rfl⟩ := h1
        constructor
        · exact ⟨fun ⟨z, hz, _⟩ => Option.noConfusion hz, fun ⟨_, ht'⟩ => absurd ht' ht⟩
        · exact ⟨fun ⟨z, hz, _⟩ => Option.noConfusion hz, fun ⟨hnb, _, _⟩ => absurd hb hnb⟩
    · rw [if_neg hb] at hscan
      by_cases hs : cc.High < cp.Low
      · rw [if_pos hs] at hscan
        by_cases ht : m.min_gap_points ≤ cp.Low - cc.High
        · rw [if_pos ht] at hscan
          have h1 := Option.some.inj hscan
          rw [Prod.mk.injEq] at h1
          obtain ⟨rfl, rfl⟩ := h1
          constructor
          · constructor
            · rintro ⟨z, hz, htrue⟩
              obtain rfl := (Option.some.inj hz).symm
              exact Bool.noConfusion htrue
            · rintro ⟨hb', _⟩
              exact absurd hb' hb
          · exact ⟨fun _ => ⟨hb, hs, ht⟩, fun _ => ⟨_, rfl, rfl⟩⟩
        · rw [if_neg ht] at hscan
          have h1 := Option.some.inj hscan
          rw [Prod.mk.injEq] at h1
          obtain ⟨rfl, rfl⟩ := h1
          constructor
          · exact ⟨fun ⟨z, hz, _⟩ => Option.noConfusion hz, fun ⟨hb', _⟩ => absurd hb' hb⟩
          · exact ⟨fun ⟨z, hz, _⟩ => Option.noConfusion hz, fun ⟨_, _, ht'⟩ => absurd ht' ht⟩
      · rw [if_neg hs] at hscan
        have h1 := Option.some.inj hscan
        rw [Prod.mk.injEq] at h1
        obtain ⟨rfl, rfl⟩ := h1
        constructor
        · exact ⟨fun ⟨z, hz, _⟩ => Option.noConfusion hz, fun ⟨hb', _⟩ => absurd hb' hb⟩
        · exact ⟨fun ⟨z, hz, _⟩ => Option.noConfusion hz, fun ⟨_, hs', _⟩ => absurd hs' hs⟩
  · intro m m' dh dl dc idx t low1 high3 high1 low3 e1 e2 e3 e4 hup hfa hfi
    obtain ⟨l1', h3', h1', l3', c', f1, f2, f3, f4, f5⟩ :=
      Smc.update_isSome_iloc hup
    rw [Smc.update_eq e1 e2 e3 e4 f5] at hup
    obtain rfl := (Option.some.inj hup).symm
    constructor
    · constructor
      · rintro ⟨f, hfmem, hfidx, hfbull⟩
        rcases hfmem with hf | hf
        · rcases Smc.mem_detectedList (List.mem_filter.mp hf).1 with
            ⟨hm, _⟩ | ⟨hb, rfl⟩ | ⟨hs, rfl⟩
          · exact absurd hfidx (hfa f hm)
          · exact hb
          · exact Bool.noConfusion hfbull
        · rcases List.mem_append.mp hf with hf | hf
          · exact absurd hfidx (hfi f (List.mem_filter.mp hf).1)
          · obtain ⟨g, hg, rfl⟩ := List.mem_map.mp hf
            rcases Smc.mem_detectedList (List.mem_filter.mp hg).1 with
              ⟨hm, _⟩ | ⟨hb, rfl⟩ | ⟨hs, rfl⟩
            · exact absurd hfidx (hfa g hm)
            · exact hb
            · exact Bool.noConfusion hfbull
      · intro hb
        have hz := @Smc.bull_mem_detectedList m idx t low1 high3 high1 low3 hb
        by_cases hcv : Smc.invertCond c'
            { top := low1, bottom := high3, is_bullish := true,
              created_at := idx, created_time := t } = true
        · exact ⟨_, Or.inr (List.mem_append.mpr (Or.inr (List.mem_map.mpr
            ⟨_, List.mem_filter.mpr ⟨hz, hcv⟩, rfl⟩))), rfl, rfl⟩
        · refine ⟨_, Or.inl (List.mem_filter.mpr ⟨hz, ?_⟩), rfl, rfl⟩
          cases hcc : Smc.invertCond c'
              { top := low1, bottom := high3, is_bullish := true,
                created_at := idx, created_time := t }
          · rfl
          · exact absurd hcc hcv
    · constructor
      · rintro ⟨f, hfmem, hfidx, hfbear⟩
        rcases hfmem with hf | hf
        · rcases Smc.mem_detectedList (List.mem_filter.mp hf).1 with
            ⟨hm, _⟩ | ⟨hb, rfl⟩ | ⟨hs, rfl⟩
          · exact absurd hfidx (hfa f hm)
          · exact Bool.noConfusion hfbear
          · exact hs
        · rcases List.mem_append.mp hf with hf | hf
          · exact absurd hfidx (hfi f (List.mem_filter.mp hf).1)
          · obtain ⟨g, hg, rfl⟩ := List.mem_map.mp hf
            rcases Smc.mem_detectedList (List.mem_filter.mp hg).1 with
              ⟨hm, _⟩ | ⟨hb, rfl⟩ | ⟨hs, rfl⟩
            · exact absurd hfidx (hfa g hm)
            · exact Bool.noConfusion hfbear
            · exact hs
      · intro hs
        have hz := @Smc.bear_mem_detectedList m idx t low1 high3 high1 low3 hs
        by_cases hcv : Smc.invertCond c'
            { top := low3, bottom := high1, is_bullish := false,
              created_at := idx, created_time := t } = true
        · exact ⟨_, Or.inr (List.mem_append.mpr (Or.inr (List.mem_map.mpr
            ⟨_, List.mem_filter.mpr ⟨hz, hcv⟩, rfl⟩))), rfl, rfl⟩
        · refine ⟨_, Or.inl (List.mem_filter.mpr ⟨hz, ?_⟩), rfl, rfl⟩
          cases hcc : Smc.invertCond c'
              { top := low3, bottom := high1, is_bullish := false,
                created_at := idx, created_time := t }
          · rfl
          · exact absurd hcc hcv

/-- C4 amended witness: the counterexample bars instantiate the
characterization — a gap exactly equal to the threshold creates a Bullish
zone. -/
theorem gap_creation_characterization_witness :
    ∃ z : Indicators.FVG,
      (some ⟨2, 11, 10, true, Indicators.Status.ACTIVE, 2⟩ :
          Option Indicators.FVG) = some z ∧ z.is_bullish = true :=
  ((gap_creation_characterization.1 ⟨[], 1⟩
      ⟨[⟨2, 11, 10, true, Indicators.Status.ACTIVE, 2⟩], 1⟩
      [⟨10, 9, 9, 0⟩, ⟨10, 9, 9, 1⟩, ⟨12, 11, 11, 2⟩] 2
      ⟨12, 11, 11, 2⟩ ⟨10, 9, 9, 0⟩
      (some ⟨2, 11, 10, true, Indicators.Status.ACTIVE, 2⟩)
      (by decide) (by decide) (by decide)
      (by norm_num [Indicators.FVGManager.scan_for_new_fvg])).1).mpr
    ⟨by norm_num, by norm_num⟩

/-- C5: with a full `left + right + 1` backward window available
(`left + right <= i < length`), the detector flags a confirmed swing high
attributed to confirmation index `i`, of value `v`, iff `high[i - right]`
equals `v` and `v` is an upper bound of the whole window
`[i - left - right, i]` — i.e. iff the candidate equals the window
maximum; symmetrically for swing lows with minima.  Since the test is
plain equality with the extreme, every bar of a plateau sharing the
extreme value satisfies it independently. -/
theorem swing_detection_spec (high low : List ℚ) (left right i : ℕ)
    (hfull : left + right ≤ i) (hih : i < high.length) (hil : i < low.length) :
    ((Smc.get_swing_points high low left right).1.get? i =
        some (Smc.swingHighAt high left right i)) ∧
    ((Smc.get_swing_points high low left right).2.get? i =
        some (Smc.swingLowAt low left right i)) ∧
    (∀ v, Smc.swingHighAt high left right i = some v ↔
       (high.get? (i - right) = some v ∧
        ∀ j u, i ≤ j + (left + right) → j ≤ i → high.get? j = some u →
          u ≤ v)) ∧
    (∀ v, Smc.swingLowAt low left right i = some v ↔
       (low.get? (i - right) = some v ∧
        ∀ j u, i ≤ j + (left + right) → j ≤ i → low.get? j = some u →
          v ≤ u)) := by
  have hw : left + right + 1 ≤ i + 1 := by omega
  have hir : right ≤ i := by omega
  refine ⟨?_, ?_, ?_, ?_⟩
  · unfold Smc.get_swing_points
    rw [List.get?_map, List.get?_range hih]
    rfl
  · unfold Smc.get_swing_points
    rw [List.get?_map, List.get?_range hil]
    rfl
  · obtain ⟨cand, hcand⟩ : ∃ c, high.get? (i - right) = some c := by
      cases hc : high.get? (i - right) with
      | none =>
        rw [List.get?_eq_none] at hc
        omega
      | some c => exact ⟨c, rfl⟩
    have hcmem : cand ∈ Smc.rollingWindow high (left + right + 1) i :=
      (Smc.mem_rollingWindow_iff hw hih).mpr ⟨i - right, by omega, by omega, hcand⟩
    obtain ⟨M, hM⟩ :
        ∃ M, Smc.listMax (Smc.rollingWindow high (left + right + 1) i) = some M := by
      cases hm : Smc.listMax (Smc.rollingWindow high (left + right + 1) i) with
      | none =>
        rw [Smc.listMax_eq_none] at hm
        rw [hm] at hcmem
        simp at hcmem
      | some M => exact ⟨M, rfl⟩
    have hshift : Smc.shiftAt high right i = some cand := by
      unfold Smc.shiftAt
      rw [if_pos hir]
      exact hcand
    have hroll : Smc.rollingMax high (left + right + 1) i = some M := by
      unfold Smc.rollingMax
      rw [if_pos ⟨hw, hih⟩]
      exact hM
    have hswing : Smc.swingHighAt high left right i =
        (if cand = M then some cand else none) := by
      unfold Smc.swingHighAt
      dsimp only
      rw [hshift, hroll]
    intro v
    rw [hswing]
    constructor
    · intro hv
      by_cases hcm : cand = M
      · rw [if_pos hcm] at hv
        obtain rfl := (Option.some.inj hv).symm
        refine ⟨hcand, fun j u hj1 hj2 hu => ?_⟩
        have humem : u ∈ Smc.rollingWindow high (left + right + 1) i :=
          (Smc.mem_rollingWindow_iff hw hih).mpr ⟨j, by omega, hj2, hu⟩
        exact hcm ▸ Smc.le_listMax hM u humem
      · rw [if_neg hcm] at hv
        exact Option.noConfusion hv
    · rintro ⟨hv, hub⟩
      have hvc : v = cand := by
        rw [hcand] at hv
        exact (Option.some.inj hv).symm
      subst hvc
      have hmax : Smc.listMax (Smc.rollingWindow high (left + right + 1) i) =
          some v := by
        refine Smc.listMax_eq_of hcmem (fun z hz => ?_)
        obtain ⟨j, hj1, hj2, hjz⟩ := (Smc.mem_rollingWindow_iff hw hih).mp hz
        exact hub j z (by omega) hj2 hjz
      have hMc : M = v := by
        rw [hM] at hmax
        exact Option.some.inj hmax
      rw [if_pos hMc.symm]
  · obtain ⟨cand, hcand⟩ : ∃ c, low.get? (i - right) = some c := by
      cases hc : low.get? (i - right) with
      | none =>
        rw [List.get?_eq_none] at hc
        omega
      | some c => exact ⟨c, rfl⟩
    have hcmem : cand ∈ Smc.rollingWindow low (left + right + 1) i :=
      (Smc.mem_rollingWindow_iff hw hil).mpr ⟨i - right, by omega, by omega, hcand⟩
    obtain ⟨M, hM⟩ :
        ∃ M, Smc.listMin (Smc.rollingWindow low (left + right + 1) i) = some M := by
      cases hm : Smc.listMin (Smc.rollingWindow low (left + right + 1) i) with
      | none =>
        rw [Smc.listMin_eq_none] at hm
        rw [hm] at hcmem
        simp at hcmem
      | some M => exact ⟨M, rfl⟩
    have hshift : Smc.shiftAt low right i = some cand := by
      unfold Smc.shiftAt
      rw [if_pos hir]
      exact hcand
    have hroll : Smc.rollingMin low (left + right + 1) i = some M := by
      unfold Smc.rollingMin
      rw [if_pos ⟨hw, hil⟩]
      exact hM
    have hswing : Smc.swingLowAt low left right i =
        (if cand = M then some cand else none) := by
      unfold Smc.swingLowAt
      dsimp only
      rw [hshift, hroll]
    intro v
    rw [hswing]
    constructor
    · intro hv
      by_cases hcm : cand = M
      · rw [if_pos hcm] at hv
        obtain rfl := (Option.some.inj hv).symm
        refine ⟨hcand, fun j u hj1 hj2 hu => ?_⟩
        have humem : u ∈ Smc.rollingWindow low (left + right + 1) i :=
          (Smc.mem_rollingWindow_iff hw hil).mpr ⟨j, by omega, hj2, hu⟩
        exact hcm ▸ Smc.listMin_le hM u humem
      · rw [if_neg hcm] at hv
        exact Option.noConfusion hv
    · rintro ⟨hv, hub⟩
      have hvc : v = cand := by
        rw [hcand] at hv
        exact (Option.some.inj hv).symm
      subst hvc
      have hmin : Smc.listMin (Smc.rollingWindow low (left + right + 1) i) =
          some v := by
        refine Smc.listMin_eq_of hcmem (fun z hz => ?_)
        obtain ⟨j, hj1, hj2, hjz⟩ := (Smc.mem_rollingWindow_iff hw hil).mp hz
        exact hub j z (by omega) hj2 hjz
      have hMc : M = v := by
        rw [hM] at hmin
        exact Option.some.inj hmin
      rw [if_pos hMc.symm]

/-- C5 witness: on a concrete series the bar of a five-bar window whose
candidate equals the window maximum (resp. minimum) is flagged. -/
theorem swing_detection_spec_witness :
    Smc.swingHighAt [1, 5, 1, 1, 1] 1 2 3 = some 5 ↔
      (([1, 5, 1, 1, 1] : List ℚ).get? 1 = some 5 ∧
       ∀ j u, 3 ≤ j + (1 + 2) → j ≤ 3 →
         ([1, 5, 1, 1, 1] : List ℚ).get? j = some u → u ≤ 5) :=
  (swing_detection_spec [1, 5, 1, 1, 1] [0, 0, 0, 0, 0] 1 2 3
    (by decide) (by decide) (by decide)).2.2.1 5

namespace Smc

lemma bullish_break_iff {close : List ℚ} {lsh : List (Option ℚ)} {T : ℕ}
    (hT : 1 ≤ T) (hlen : T < close.length) :
    bullish_break close lsh T = true ↔
      ∃ level cT cp, lsh.get? (T - 1) = some (some level) ∧
        close.get? T = some cT ∧ close.get? (T - 1) = some cp ∧
        level < cT ∧ cp ≤ level := by
  have hT0 : ¬(T = 0) := by omega
  obtain ⟨cT, hcT⟩ : ∃ c, close.get? T = some c := by
    cases hc : close.get? T with
    | none =>
      rw [List.get?_eq_none] at hc
      omega
    | some c => exact ⟨c, rfl⟩
  obtain ⟨cp, hcp⟩ : ∃ c, close.get? (T - 1) = some c := by
    cases hc : close.get? (T - 1) with
    | none =>
      rw [List.get?_eq_none] at hc
      omega
    | some c => exact ⟨c, rfl⟩
  unfold bullish_break levelShift1
  rw [if_neg hT0, if_neg hT0, hcT, hcp]
  cases hL : lsh.get? (T - 1) with
  | none =>
    constructor
    · intro h
      have h' : (false : Bool) = true := h
      exact Bool.noConfusion h'
    · rintro ⟨L', cT', cp', hL', _, _, _, _⟩
      exact Option.noConfusion hL'
  | some o =>
    cases o with
    | none =>
      constructor
      · intro h
        have h' : (false : Bool) = true := h
        exact Bool.noConfusion h'
      · rintro ⟨L', cT', cp', hL', _, _, _, _⟩
        exact Option.noConfusion (Option.some.inj hL')
    | some L =>
      constructor
      · intro h
        have h' : (decide (L < cT) && decide (cp ≤ L)) = true := h
        simp only [Bool.and_eq_true, decide_eq_true_eq] at h'
        exact ⟨L, cT, cp, rfl, rfl, rfl, h'.1, h'.2⟩
      · rintro ⟨L', cT', cp', hL', hcT', hcp', h1, h2⟩
        have e1 : L' = L := (Option.some.inj (Option.some.inj hL')).symm
        have e2 : cT' = cT := (Option.some.inj hcT').symm
        have e3 : cp' = cp := (Option.some.inj hcp').symm
        have h' : (decide (L < cT) && decide (cp ≤ L)) = true := by
          simp only [Bool.and_eq_true, decide_eq_true_eq]
          exact ⟨e1 ▸ e2 ▸ h1, e1 ▸ e3 ▸ h2⟩
        exact h'

lemma bearish_break_iff {close : List ℚ} {lsl : List (Option ℚ)} {T : ℕ}
    (hT : 1 ≤ T) (hlen : T < close.length) :
    bearish_break close lsl T = true ↔
      ∃ level cT cp, lsl.get? (T - 1) = some (some level) ∧
        close.get? T = some cT ∧ close.get? (T - 1) = some cp ∧
        cT < level ∧ level ≤ cp := by
  have hT0 : ¬(T = 0) := by omega
  obtain ⟨cT, hcT⟩ : ∃ c, close.get? T = some c := by
    cases hc : close.get? T with
    | none =>
      rw [List.get?_eq_none] at hc
      omega
    | some c => exact ⟨c, rfl⟩
  obtain ⟨cp, hcp⟩ : ∃ c, close.get? (T - 1) = some c := by
    cases hc : close.get? (T - 1) with
    | none =>
      rw [List.get?_eq_none] at hc
      omega
    | some c => exact ⟨c, rfl⟩
  unfold bearish_break levelShift1
  rw [if_neg hT0, if_neg hT0, hcT, hcp]
  cases hL : lsl.get? (T - 1) with
  | none =>
    constructor
    · intro h
      have h' : (false : Bool) = true := h
      exact Bool.noConfusion h'
    · rintro ⟨L', cT', cp', hL', _, _, _, _⟩
      exact Option.noConfusion hL'
  | some o =>
    cases o with
    | none =>
      constructor
      · intro h
        have h' : (false : Bool) = true := h
        exact Bool.noConfusion h'
      · rintro ⟨L', cT', cp', hL', _, _, _, _⟩
        exact Option.noConfusion (Option.some.inj hL')
    | some L =>
      constructor
      · intro h
        have h' : (decide (cT < L) && decide (L ≤ cp)) = true := h
        simp only [Bool.and_eq_true, decide_eq_true_eq] at h'
        exact ⟨L, cT, cp, rfl, rfl, rfl, h'.1, h'.2⟩
      · rintro ⟨L', cT', cp', hL', hcT', hcp', h1, h2⟩
        have e1 : L' = L := (Option.some.inj (Option.some.inj hL')).symm
        have e2 : cT' = cT := (Option.some.inj hcT').symm
        have e3 : cp' = cp := (Option.some.inj hcp').symm
        have h' : (decide (cT < L) && decide (L ≤ cp)) = true := by
          simp only [Bool.and_eq_true, decide_eq_true_eq]
          exact ⟨e1 ▸ e2 ▸ h1, e1 ▸ e3 ▸ h2⟩
        exact h'

end Smc

/-- C2: for `T ≥ 1` within the series, the structure-shift output at `T`
is `1` (Bullish) iff the close strictly crosses above the most recent
confirmed swing-high level (the forward-filled level as of bar `T - 1`,
which is what `last_swing_high.shift(1)` reads): `close[T] > level` and
`close[T-1] <= level`; it is `-1` (Bearish) by the mirror condition on the
swing-low level, and `0` exactly when neither fires.  The two conditions
can never hold on the same bar, so the precedence clause is vacuous and
the claimed iff-characterization holds as stated. -/
theorem detect_mss_cross_spec (close : List ℚ) (sh sl : List (Option ℚ))
    (T : ℕ) (hT : 1 ≤ T) (hlen : T < close.length) :
    ((Smc.detect_mss close sh sl).get? T = some 1 ↔
       Smc.SpecBullishShift close sh T) ∧
    ((Smc.detect_mss close sh sl).get? T = some (-1) ↔
       Smc.SpecBearishShift close sl T) ∧
    ¬(Smc.SpecBullishShift close sh T ∧ Smc.SpecBearishShift close sl T) ∧
    ((Smc.detect_mss close sh sl).get? T = some 0 ↔
       ¬Smc.SpecBullishShift close sh T ∧ ¬Smc.SpecBearishShift close sl T) := by
  have hval : (Smc.detect_mss close sh sl).get? T =
      some (if Smc.bearish_break close (Smc.ffill sl) T then -1
        else if Smc.bullish_break close (Smc.ffill sh) T then 1 else 0) := by
    unfold Smc.detect_mss
    rw [List.get?_map, List.get?_range hlen]
    rfl
  have hdisj : ¬(Smc.SpecBullishShift close sh T ∧
      Smc.SpecBearishShift close sl T) := by
    rintro ⟨⟨L1, cT1, cp1, hL1, hcT1, hcp1, h1, h2⟩,
      ⟨L2, cT2, cp2, hL2, hcT2, hcp2, h3, h4⟩⟩
    obtain rfl : cT2 = cT1 := by
      rw [hcT1] at hcT2
      exact (Option.some.inj hcT2).symm
    obtain rfl : cp2 = cp1 := by
      rw [hcp1] at hcp2
      exact (Option.some.inj hcp2).symm
    linarith
  by_cases hbear : Smc.bearish_break close (Smc.ffill sl) T = true
  · have hbearP : Smc.SpecBearishShift close sl T :=
      (Smc.bearish_break_iff hT hlen).mp hbear
    rw [hval, if_pos hbear]
    refine ⟨?_, ⟨fun _ => hbearP, fun _ => rfl⟩, hdisj, ?_⟩
    · constructor
      · intro h
        exact absurd (Option.some.inj h) (by decide)
      · intro hbullP
        exact absurd ⟨hbullP, hbearP⟩ hdisj
    · constructor
      · intro h
        exact absurd (Option.some.inj h) (by decide)
      · rintro ⟨_, hnb⟩
        exact absurd hbearP hnb
  · by_cases hbull : Smc.bullish_break close (Smc.ffill sh) T = true
    · have hbullP : Smc.SpecBullishShift close sh T :=
        (Smc.bullish_break_iff hT hlen).mp hbull
      have hnbearP : ¬Smc.SpecBearishShift close sl T :=
        fun hP => hbear ((Smc.bearish_break_iff hT hlen).mpr hP)
      rw [hval, if_neg hbear, if_pos hbull]
      refine ⟨⟨fun _ => hbullP, fun _ => rfl⟩, ?_, hdisj, ?_⟩
      · constructor
        · intro h
          exact absurd (Option.some.inj h) (by decide)
        · intro hP
          exact absurd hP hnbearP
      · constructor
        · intro h
          exact absurd (Option.some.inj h) (by decide)
        · rintro ⟨hnb, _⟩
          exact absurd hbullP hnb
    · have hnbull : ¬Smc.SpecBullishShift close sh T :=
        fun hP => hbull ((Smc.bullish_break_iff hT hlen).mpr hP)
      have hnbear : ¬Smc.SpecBearishShift close sl T :=
        fun hP => hbear ((Smc.bearish_break_iff hT hlen).mpr hP)
      rw [hval, if_neg hbear, if_neg hbull]
      refine ⟨?_, ?_, hdisj, ⟨fun _ => ⟨hnbull, hnbear⟩, fun _ => rfl⟩⟩
      · exact ⟨fun h => absurd (Option.some.inj h) (by decide),
          fun hP => absurd hP hnbull⟩
      · exact ⟨fun h => absurd (Option.some.inj h) (by decide),
          fun hP => absurd hP hnbear⟩

/-- C2 witness: a swing high of 5 confirmed at index 0 is crossed at bar 2
(close 4 → 6), producing a Bullish shift. -/
theorem detect_mss_cross_spec_witness :
    (Smc.detect_mss [1, 4, 6] [some 5, none, none] [none, none, none]).get? 2 =
      some 1 :=
  (detect_mss_cross_spec [1, 4, 6] [some 5, none, none] [none, none, none] 2
      (by decide) (by decide)).1.mpr
    ⟨5, 6, 4, by decide, by decide, by decide, by norm_num, by norm_num⟩

namespace Smc

lemma shiftAt_take {xs : List ℚ} {r i N : ℕ} (h : i < N) :
    shiftAt (xs.take N) r i = shiftAt xs r i := by
  unfold shiftAt
  by_cases hr : r ≤ i
  · rw [if_pos hr, if_pos hr]
    exact List.get?_take (by omega)
  · rw [if_neg hr, if_neg hr]

lemma rollingWindow_take {xs : List ℚ} {w i N : ℕ} (hw : w ≤ i + 1)
    (hN : i < N) :
    rollingWindow (xs.take N) w i = rollingWindow xs w i := by
  unfold rollingWindow
  rw [List.drop_take, List.take_take, min_eq_left (by omega)]

lemma rollingMax_take {xs : List ℚ} {w i N : ℕ} (hN : i < N) :
    rollingMax (xs.take N) w i = rollingMax xs w i := by
  unfold rollingMax
  rw [List.length_take]
  by_cases hc : w ≤ i + 1 ∧ i < xs.length
  · rw [if_pos ⟨hc.1, by omega⟩, if_pos hc, rollingWindow_take hc.1 hN]
  · have hc' : ¬(w ≤ i + 1 ∧ i < min N xs.length) := by omega
    rw [if_neg hc', if_neg hc]

lemma rollingMin_take {xs : List ℚ} {w i N : ℕ} (hN : i < N) :
    rollingMin (xs.take N) w i = rollingMin xs w i := by
  unfold rollingMin
  rw [List.length_take]
  by_cases hc : w ≤ i + 1 ∧ i < xs.length
  · rw [if_pos ⟨hc.1, by omega⟩, if_pos hc, rollingWindow_take hc.1 hN]
  · have hc' : ¬(w ≤ i + 1 ∧ i < min N xs.length) := by omega
    rw [if_neg hc', if_neg hc]

lemma swingHighAt_take {xs : List ℚ} {left right i N : ℕ} (hN : i < N) :
    swingHighAt (xs.take N) left right i = swingHighAt xs left right i := by
  unfold swingHighAt
  dsimp only
  rw [shiftAt_take hN, rollingMax_take hN]

lemma swingLowAt_take {xs : List ℚ} {left right i N : ℕ} (hN : i < N) :
    swingLowAt (xs.take N) left right i = swingLowAt xs left right i := by
  unfold swingLowAt
  dsimp only
  rw [shiftAt_take hN, rollingMin_take hN]

lemma runFVG_take {m0 : FVGManager} {dh dl dc : List ℚ} {w : ℕ}
    {times : ℕ → ℕ} : ∀ {N n : ℕ}, n ≤ N →
    runFVG m0 (dh.take N) (dl.take N) (dc.take N) w times n =
      runFVG m0 dh dl dc w times n := by
  intro N n
  induction n with
  | zero => intro _; rfl
  | succ k ih =>
    intro hn
    simp only [runFVG]
    rw [ih (by omega)]
    cases hr : runFVG m0 dh dl dc w times k with
    | none => rfl
    | some m =>
      simp only [Option.bind]
      by_cases hw' : k + 1 < w
      · rw [if_pos hw', if_pos hw']
      · rw [if_neg hw', if_neg hw', List.take_take, List.take_take,
          List.take_take, min_eq_left hn]

end Smc

/-- C9: incremental and batch processing agree.  Swing confirmations at
index `i` are unchanged when the series is truncated to any prefix
containing `i` (no lookahead), and the zone-engine state after `n` bars of
the driving loop is identical whether the loop runs over a prefix of
length `N ≥ n` or over the full history: outputs at a bar depend only on
bars up to that bar. -/
theorem incremental_batch_agreement :
    (∀ (high : List ℚ) (left right N i : ℕ), i < N →
       Smc.swingHighAt (high.take N) left right i =
         Smc.swingHighAt high left right i) ∧
    (∀ (low : List ℚ) (left right N i : ℕ), i < N →
       Smc.swingLowAt (low.take N) left right i =
         Smc.swingLowAt low left right i) ∧
    (∀ (m0 : Smc.FVGManager) (dh dl dc : List ℚ) (w : ℕ) (times : ℕ → ℕ)
       (N n : ℕ), n ≤ N →
       Smc.runFVG m0 (dh.take N) (dl.take N) (dc.take N) w times n =
         Smc.runFVG m0 dh dl dc w times n) :=
  ⟨fun _ _ _ _ _ h => Smc.swingHighAt_take h,
   fun _ _ _ _ _ h => Smc.swingLowAt_take h,
   fun _ _ _ _ _ _ _ _ h => Smc.runFVG_take h⟩

/-- C9 witness: a four-bar history truncated to its first three bars
yields the same swing outputs at index 2 and the same engine state after
three bars of the driving loop. -/
theorem incremental_batch_agreement_witness :
    Smc.swingHighAt (([1, 5, 1, 9] : List ℚ).take 3) 1 1 2 =
      Smc.swingHighAt [1, 5, 1, 9] 1 1 2 ∧
    Smc.swingLowAt (([1, 5, 1, 0] : List ℚ).take 3) 1 1 2 =
      Smc.swingLowAt [1, 5, 1, 0] 1 1 2 ∧
    Smc.runFVG ⟨100, [], []⟩ (([6, 8, 12, 13] : List ℚ).take 3)
        (([5, 7, 10, 11] : List ℚ).take 3) (([5, 7, 11, 12] : List ℚ).take 3)
        3 (fun _ => 0) 3 =
      Smc.runFVG ⟨100, [], []⟩ [6, 8, 12, 13] [5, 7, 10, 11] [5, 7, 11, 12]
        3 (fun _ => 0) 3 :=
  ⟨incremental_batch_agreement.1 [1, 5, 1, 9] 1 1 3 2 (by decide),
   incremental_batch_agreement.2.1 [1, 5, 1, 0] 1 1 3 2 (by decide),
   incremental_batch_agreement.2.2 ⟨100, [], []⟩ [6, 8, 12, 13] [5, 7, 10, 11]
     [5, 7, 11, 12] 3 (fun _ => 0) 3 3 (by decide)⟩
